import Mathlib

/-! Document synchronisation and diagnostics of the Solidity language server.

A shallow embedding of `solls/LanguageServer.cpp`: the message handlers of
`solidity::LanguageServer` (the `operator()` overloads), `validateAll` and the two
`validate` overloads, over an explicit server state.

The handlers are translated from the source.  The classes they call into
(`lsp::vfs::VFS`, `lsp::vfs::File`, `lsp::TextBuffer`) live in other translation
units; their operations are modelled from the specification and marked as such.
`std::string::find` is modelled after the C++ standard library.
-/

set_option autoImplicit false

namespace solidity

/-! ## Text and positions -/

/-- A `std::string` holding document text: a sequence of bytes, each a number below
256. -/
abbrev Text := List Nat

/-- The UTF-8 encoding of one Unicode scalar value, used to write down literals. -/
def utf8Encode (c : Nat) : Text :=
  if c < 0x80 then [c]
  else if c < 0x800 then [0xC0 + c / 64, 0x80 + c % 64]
  else if c < 0x10000 then [0xE0 + c / 4096, 0x80 + c / 64 % 64, 0x80 + c % 64]
  else [0xF0 + c / 262144, 0x80 + c / 4096 % 64, 0x80 + c / 64 % 64, 0x80 + c % 64]

/-- The bytes of a string literal (UTF-8). -/
def bytes (s : String) : Text :=
  s.data.flatMap fun c => utf8Encode c.toNat

/-- The line feed byte. -/
def newline : Nat := 10

/-- A `lsp::Position`: zero-based line and column. -/
structure Position where
  line : Nat
  column : Nat
  deriving DecidableEq, Repr

/-- A `lsp::Range`: a start and an end position. -/
structure Range where
  start : Position
  «end» : Position
  deriving DecidableEq, Repr

/-- Lexicographic order on positions: line first, then column. -/
def Position.le (p q : Position) : Prop :=
  p.line < q.line ∨ (p.line = q.line ∧ p.column ≤ q.column)

instance (p q : Position) : Decidable (Position.le p q) := by
  unfold Position.le; infer_instance

/-- Modelled from the spec: the number of UTF-16 code units contributed by one byte
of UTF-8 text (`lsp::TextBuffer` counts columns in UTF-16 units). A continuation
byte contributes nothing, the lead byte of a four-byte sequence (a character
outside the basic plane, hence a surrogate pair) contributes two, every other
byte one. -/
def utf16Units (b : Nat) : Nat :=
  if 0x80 ≤ b ∧ b < 0xC0 then 0 else if 0xF0 ≤ b then 2 else 1

/-- The length of a byte sequence in UTF-16 code units. -/
def utf16Length (t : Text) : Nat :=
  (t.map utf16Units).sum

/-- Modelled from the spec: one step of the walk that `lsp::TextBuffer::positionOf`
performs: a line feed starts a new line at column zero, any other byte advances the
column by its UTF-16 units. -/
def Position.advance (p : Position) (b : Nat) : Position :=
  if b = newline then ⟨p.line + 1, 0⟩ else ⟨p.line, p.column + utf16Units b⟩

/-- Modelled from the spec: `lsp::TextBuffer::positionOf(offset)`, the editor
position of a byte offset: the line is the number of line feeds before the offset,
the column the UTF-16 length of the text between the start of that line and the
offset. -/
def positionOf (t : Text) (offset : Nat) : Position :=
  (t.take offset).foldl Position.advance ⟨0, 0⟩

/-- The offsets `n, n-1, ..., 0`. -/
def offsetsDownFrom : Nat → List Nat
  | 0 => [0]
  | n + 1 => (n + 1) :: offsetsDownFrom n

/-- Modelled from the spec: `lsp::TextBuffer::offsetOf(position)`, the inverse of
`positionOf`: the offset in `[0, length]` whose position is the given one (the
character boundary, that is the last such offset), or `none` (InvalidPosition) when
the line or the column exceeds the text. The position at the end of a line is
valid. -/
def offsetOf (t : Text) (p : Position) : Option Nat :=
  (offsetsDownFrom t.length).find? fun o => decide (positionOf t o = p)

/-- Modelled from the spec: the lines of a text, split at line feeds (the line index
of `lsp::TextBuffer`). A text always has at least one line. -/
def lines : Text → List Text
  | [] => [[]]
  | b :: bs =>
    if b = newline then [] :: lines bs
    else (b :: (lines bs).headD []) :: (lines bs).tail

/-- The length of a line in UTF-16 code units, `none` when there is no such line. -/
def lineLength (t : Text) (line : Nat) : Option Nat :=
  ((lines t).get? line).map utf16Length

/-! ## `std::string::find` -/

/-- Whether `pat` occurs in `s` at offset `i`. -/
def occursAt (s pat : Text) (i : Nat) : Bool :=
  decide ((s.drop i).take pat.length = pat)

/-- The candidates `pos, pos+1, ...` (`n` of them) tried in order. -/
def findFrom (s pat : Text) : Nat → Nat → Option Nat
  | 0, _ => none
  | n + 1, pos => if occursAt s pat pos then some pos else findFrom s pat n (pos + 1)

/-- `std::string::find(pat, pos)`: the least offset `i ≥ pos` at which `pat` occurs
in `s`, `none` standing for `npos`. -/
def find (s pat : Text) (pos : Nat) : Option Nat :=
  findFrom s pat (s.length + 1 - pos) pos

/-! ## The virtual file system (`lsp::vfs`) -/

/-- The failures of the document store named by the specification. -/
inductive VfsError where
  | outOfRangeEdit
  | invalidPosition
  | protocolViolation
  deriving DecidableEq, Repr

/-- A `lsp::TextBuffer`: the text of one document. The line index is a cache derived
from the text and is not represented. -/
structure TextBuffer where
  text : Text
  deriving DecidableEq, Repr

/-- Modelled from the spec: `lsp::TextBuffer::replace(text)`, a full overwrite. -/
def TextBuffer.replace (_b : TextBuffer) (text : Text) : TextBuffer :=
  ⟨text⟩

/-- Modelled from the spec: `lsp::TextBuffer::modify(range, newText)`: fails with
OutOfRangeEdit when an endpoint of the range lies outside the text, and otherwise
splices `newText` into the addressed span. A range whose end precedes its start is
rejected as a protocol violation (the spec leaves the case open and recommends to
reject it). -/
def TextBuffer.modify (b : TextBuffer) (range : Range) (newText : Text) :
    Except VfsError TextBuffer :=
  match offsetOf b.text range.start, offsetOf b.text range.end with
  | some s, some e =>
    if s ≤ e then .ok ⟨b.text.take s ++ newText ++ b.text.drop e⟩
    else .error .protocolViolation
  | _, _ => .error .outOfRangeEdit

/-- A `lsp::vfs::File`: one open document. -/
structure File where
  uri : String
  languageId : String
  version : Int
  buffer : TextBuffer
  deriving DecidableEq, Repr

/-- `File::str()`: the current text. -/
def File.str (f : File) : Text := f.buffer.text

/-- Modelled from the spec: `lsp::vfs::File::setVersion`, a plain setter. -/
def File.setVersion (f : File) (v : Int) : File :=
  { f with version := v }

/-- Modelled from the spec: `lsp::vfs::File::replace`, a full overwrite of the
buffer. -/
def File.replace (f : File) (text : Text) : File :=
  { f with buffer := f.buffer.replace text }

/-- Modelled from the spec: `lsp::vfs::File::modify`, a ranged edit of the
buffer; on failure the file is left as it was. -/
def File.modify (f : File) (range : Range) (newText : Text) : Except VfsError File :=
  match f.buffer.modify range newText with
  | .ok b => .ok { f with buffer := b }
  | .error e => .error e

/-- What `VFS::insert` does with a URI that is already present. The specification
allows either, consistently. -/
inductive ConflictPolicy where
  | reject
  | overwrite
  deriving DecidableEq, Repr

/-- A `lsp::vfs::VFS`: the open documents, keyed by URI, in insertion order. -/
structure VFS where
  files : List File
  deriving DecidableEq, Repr

/-- Modelled from the spec: `VFS::find(uri)`, the document stored under `uri`, if
any. -/
def VFS.find (v : VFS) (uri : String) : Option File :=
  v.files.find? fun f => decide (f.uri = uri)

/-- Writes a file back under its own URI: the effect on the store of mutating, in
place, the document that `find` or `insert` returned a reference to. -/
def storeFile (file : File) : List File → List File
  | [] => []
  | f :: fs => if f.uri = file.uri then file :: fs else f :: storeFile file fs

/-- The store after an in-place mutation of one of its documents. -/
def VFS.store (v : VFS) (file : File) : VFS :=
  ⟨storeFile file v.files⟩

/-- Modelled from the spec: `VFS::insert(uri, languageId, version, text)`: creates
the document and returns a reference to it. For a URI that is already present the
policy decides: `overwrite` replaces the stored document, `reject` keeps it and
returns the reference to the existing one. -/
def VFS.insert (v : VFS) (policy : ConflictPolicy) (uri languageId : String)
    (version : Int) (text : Text) : VFS × File :=
  let fresh : File := ⟨uri, languageId, version, ⟨text⟩⟩
  match v.find uri with
  | none => (⟨v.files ++ [fresh]⟩, fresh)
  | some existing =>
    match policy with
    | .overwrite => (v.store fresh, fresh)
    | .reject => (v, existing)

/-- Modelled from the spec: `VFS::remove(uri)`, releasing the document. No handler
of `LanguageServer.cpp` calls it. -/
def VFS.remove (v : VFS) (uri : String) : VFS :=
  ⟨v.files.filter fun f => !decide (f.uri = uri)⟩

/-! ## Protocol messages (`lsp::protocol`) -/

/-- A request id: `std::variant<std::string, int>`. -/
inductive MessageId where
  | str (id : String)
  | int (id : Int)
  deriving DecidableEq, Repr

/-- The payload of a cancellation. -/
structure CancelRequest where
  id : MessageId
  deriving DecidableEq, Repr

/-- A workspace folder announced by the client. -/
structure WorkspaceFolder where
  name : String
  uri : String
  deriving DecidableEq, Repr

/-- The fields of an initialisation request that the server reads. -/
structure InitializeRequest where
  requestId : MessageId
  processId : Option Int
  rootUri : Option String
  rootPath : Option String
  workspaceFolders : List WorkspaceFolder
  deriving DecidableEq, Repr

/-- How the client is to send document changes. -/
inductive TextDocumentSyncKind where
  | None
  | Full
  | Incremental
  deriving DecidableEq, Repr

/-- The document synchronisation options of the server. -/
structure TextDocumentSyncOptions where
  openClose : Bool
  change : TextDocumentSyncKind
  deriving DecidableEq, Repr

/-- The capabilities that the server sets in its answer. -/
structure ServerCapabilities where
  hoverProvider : Bool
  textDocumentSync : TextDocumentSyncOptions
  deriving DecidableEq, Repr

/-- The answer to an initialisation request. -/
structure InitializeResult where
  requestId : MessageId
  capabilities : ServerCapabilities
  deriving DecidableEq, Repr

/-- The document carried by a DidOpen notification. -/
structure TextDocumentItem where
  uri : String
  languageId : String
  version : Int
  text : Text
  deriving DecidableEq, Repr

/-- The payload of a DidOpen notification. -/
structure DidOpenTextDocumentParams where
  textDocument : TextDocumentItem
  deriving DecidableEq, Repr

/-- A document reference with an optional version. -/
structure VersionedTextDocumentIdentifier where
  uri : String
  version : Option Int
  deriving DecidableEq, Repr

/-- One change of a DidChange batch: a ranged edit or a full replacement. -/
inductive TextDocumentContentChangeEvent where
  | ranged (range : Range) (text : Text)
  | full (text : Text)
  deriving DecidableEq, Repr

/-- The payload of a DidChange notification. -/
structure DidChangeTextDocumentParams where
  textDocument : VersionedTextDocumentIdentifier
  contentChanges : List TextDocumentContentChangeEvent
  deriving DecidableEq, Repr

/-- A document reference. -/
structure TextDocumentIdentifier where
  uri : String
  deriving DecidableEq, Repr

/-- The payload of a DidClose notification. -/
structure DidCloseTextDocumentParams where
  textDocument : TextDocumentIdentifier
  deriving DecidableEq, Repr

/-- The severity of a diagnostic. -/
inductive DiagnosticSeverity where
  | Error
  | Warning
  | Information
  | Hint
  deriving DecidableEq, Repr

/-- A diagnostic: the fields that `validate` assigns. -/
structure Diagnostic where
  range : Range
  severity : DiagnosticSeverity
  message : String
  source : String
  deriving DecidableEq, Repr

/-- The payload of a PublishDiagnostics notification. -/
structure PublishDiagnosticsParams where
  uri : String
  diagnostics : List Diagnostic
  deriving DecidableEq, Repr

/-- The list that `validate` appends to. -/
abbrev PublishDiagnosticsList := List PublishDiagnosticsParams

/-! ## The server -/

/-- The severity of a log line: `logInfo`, `logMessage`, `logError`. -/
inductive LogLevel where
  | info
  | message
  | error
  deriving DecidableEq, Repr

/-- The log lines of `LanguageServer.cpp`, one constructor per logging call, each
carrying the values that the line prints. -/
inductive LogEntry where
  | requestCancelled (id : String)
  | initializing (processId : Int) (rootUri rootPath : String)
      (workspaceFolders : List WorkspaceFolder)
  | clientInitialized
  | openingDocument (uri : String)
  | didChangeRanged (range : Range) (text : Text)
  | didClose (uri : String)
  | fileNotOpened (uri : String)
  deriving DecidableEq, Repr

/-- The logging call that writes each line. -/
def LogEntry.level : LogEntry → LogLevel
  | .requestCancelled _ => .info
  | .initializing _ _ _ _ => .message
  | .clientInitialized => .message
  | .openingDocument _ => .message
  | .didChangeRanged _ _ => .message
  | .didClose _ => .message
  | .fileNotOpened _ => .error

/-- What reaches the client through `lsp::Server::reply` and `lsp::Server::notify`. -/
inductive Outgoing where
  | reply (id : MessageId) (result : InitializeResult)
  | notify (params : PublishDiagnosticsParams)
  deriving DecidableEq, Repr

/-- How a failing `File::modify` reaches the handler, which calls it as a statement
and has no handler of its own: the failure either unwinds the handler (an
exception), or is a status that the statement drops. `lsp::vfs::File` decides
which; it is not part of this translation unit. -/
inductive FailureMode where
  | unwind
  | dropped
  deriving DecidableEq, Repr

/-- What the translation unit leaves to its surroundings: whether `NDEBUG` is
undefined (a debug build), what `VFS::insert` does on a duplicate URI, and how a
failing `File::modify` is signalled. -/
structure Environment where
  debug : Bool
  onConflict : ConflictPolicy
  onModifyFailure : FailureMode
  deriving DecidableEq, Repr

/-- The state of a `solidity::LanguageServer`: the document store `m_vfs`, and the
traces of what it has sent to the client and written to the log, oldest first. -/
structure LanguageServer where
  env : Environment
  m_vfs : VFS
  sent : List Outgoing
  log : List LogEntry
  deriving DecidableEq, Repr

namespace LanguageServer

/-- A server with no open document and empty traces (the constructor). -/
def create (env : Environment) : LanguageServer :=
  ⟨env, ⟨[]⟩, [], []⟩

/-- Appends a line to the log. -/
def logLine (s : LanguageServer) (e : LogEntry) : LanguageServer :=
  { s with log := s.log ++ [e] }

/-- `lsp::Server::notify`: hands one notification to the client. -/
def notify (s : LanguageServer) (params : PublishDiagnosticsParams) : LanguageServer :=
  { s with sent := s.sent ++ [Outgoing.notify params] }

/-- `lsp::Server::reply`: hands one reply to the client. -/
def reply (s : LanguageServer) (id : MessageId) (result : InitializeResult) :
    LanguageServer :=
  { s with sent := s.sent ++ [Outgoing.reply id result] }

/-- The pattern that the placeholder analysis looks for: the bytes of `"FIXME"`. -/
def fixme : Text := [70, 73, 88, 77, 69]

/-- The diagnostic built by one iteration of the loop of `validate`, for the
occurrence at offset `pos`. -/
def fixmeDiagnostic (file : File) (pos : Nat) : Diagnostic :=
  let start := positionOf file.buffer.text pos
  { range := ⟨start, ⟨start.line, start.column + 5⟩⟩
    severity := DiagnosticSeverity.Error
    message := "Hello, FIXME should be fixed."
    source := "solc" }

/-- The loop of `validate`:
`for (pos = str.find("FIXME", 0); pos != npos; pos = str.find("FIXME", pos + 1))`,
started at loop variable `pos` with the diagnostics collected so far. The first
argument bounds the number of iterations. -/
def validateLoop (file : File) : Nat → Option Nat → List Diagnostic → List Diagnostic
  | 0, _, diagnostics => diagnostics
  | _ + 1, none, diagnostics => diagnostics
  | fuel + 1, some pos, diagnostics =>
    validateLoop file fuel (find file.str fixme (pos + 1))
      (diagnostics ++ [fixmeDiagnostic file pos])

/-- `LanguageServer::validate(File const&, PublishDiagnosticsList&)`: appends the
diagnostics of one file to `result`. Every iteration moves `pos` forward, so the
text length plus one bounds the number of iterations. -/
def validateInto (file : File) (result : PublishDiagnosticsList) : PublishDiagnosticsList :=
  result ++ [{ uri := file.uri
               diagnostics := validateLoop file (file.str.length + 1)
                 (find file.str fixme 0) [] }]

/-- `LanguageServer::validate(File const&)`: validates one file and notifies the
client of every entry of the result. -/
def validate (s : LanguageServer) (file : File) : LanguageServer :=
  (validateInto file []).foldl notify s

/-- `LanguageServer::validateAll`: validates every document of the store. -/
def validateAll (s : LanguageServer) : LanguageServer :=
  s.m_vfs.files.foldl validate s

/-- `operator()(CancelRequest const&)`: logs the cancelled id. -/
def onCancelRequest (s : LanguageServer) (args : CancelRequest) : LanguageServer :=
  let id := match args.id with
    | .str id => id
    | .int id => toString id
  s.logLine (.requestCancelled id)

/-- `operator()(InitializeRequest const&)`: logs the request in a debug build and
replies with the capabilities of the server. -/
def onInitializeRequest (s : LanguageServer) (args : InitializeRequest) : LanguageServer :=
  let s1 := if s.env.debug then
      s.logLine (.initializing (args.processId.getD (-1)) (args.rootUri.getD "NULL")
        (args.rootPath.getD "NULL") args.workspaceFolders)
    else s
  let result : InitializeResult :=
    { requestId := args.requestId
      capabilities :=
        { hoverProvider := true
          textDocumentSync :=
            { openClose := true
              change := TextDocumentSyncKind.Incremental } } }
  s1.reply args.requestId result

/-- `operator()(InitializedNotification const&)`: logs. -/
def onInitializedNotification (s : LanguageServer) : LanguageServer :=
  s.logLine .clientInitialized

/-- `operator()(DidOpenTextDocumentParams const&)`: inserts the document into the
store and validates the file that the store returns. -/
def onDidOpen (s : LanguageServer) (args : DidOpenTextDocumentParams) : LanguageServer :=
  let s1 := s.logLine (.openingDocument args.textDocument.uri)
  let inserted := s1.m_vfs.insert s1.env.onConflict args.textDocument.uri
    args.textDocument.languageId args.textDocument.version args.textDocument.text
  validate { s1 with m_vfs := inserted.1 } inserted.2

/-- The state of the loop over the content changes: the document being edited, the
lines logged, and the failure that unwound the loop, if any. -/
structure ChangeLoop where
  file : File
  log : List LogEntry
  raised : Option VfsError
  deriving DecidableEq, Repr

/-- The visitor applied to one content change: a ranged change is logged (debug
build) and passed to `File::modify`, a full change to `File::replace`. -/
def applyContentChange (debug : Bool) (file : File) :
    TextDocumentContentChangeEvent → List LogEntry × Except VfsError File
  | .ranged range text =>
    (if debug then [LogEntry.didChangeRanged range text] else [], file.modify range text)
  | .full text => ([], .ok (file.replace text))

/-- The loop `for (contentChange: _didChange.contentChanges) visit(...)`, each change
applied to the document as the previous one left it. A failing `modify` leaves the
document as it was and either unwinds the loop or is dropped. -/
def applyContentChanges (env : Environment) :
    File → List TextDocumentContentChangeEvent → ChangeLoop
  | file, [] => ⟨file, [], none⟩
  | file, change :: rest =>
    match applyContentChange env.debug file change with
    | (lines, .ok file1) =>
      let r := applyContentChanges env file1 rest
      ⟨r.file, lines ++ r.log, r.raised⟩
    | (lines, .error e) =>
      match env.onModifyFailure with
      | .unwind => ⟨file, lines, some e⟩
      | .dropped =>
        let r := applyContentChanges env file rest
        ⟨r.file, lines ++ r.log, r.raised⟩

/-- What a handler that can be unwound leaves behind: the server state, and the
failure that left the handler, if any. -/
structure Outcome where
  server : LanguageServer
  raised : Option VfsError
  deriving DecidableEq, Repr

/-- `operator()(DidChangeTextDocumentParams const&)`: for an open document, sets the
version when the message carries one, applies the content changes in order and
validates the file; otherwise logs an error. The document is edited in place, so
whatever was done before a failure unwinds the handler stays in the store. -/
def onDidChange (s : LanguageServer) (didChange : DidChangeTextDocumentParams) : Outcome :=
  match s.m_vfs.find didChange.textDocument.uri with
  | some file =>
    let file1 := match didChange.textDocument.version with
      | some v => file.setVersion v
      | none => file
    let r := applyContentChanges s.env file1 didChange.contentChanges
    let s1 := { s with m_vfs := s.m_vfs.store r.file, log := s.log ++ r.log }
    match r.raised with
    | none => ⟨validate s1 r.file, none⟩
    | some e => ⟨s1, some e⟩
  | none => ⟨s.logLine (.fileNotOpened didChange.textDocument.uri), none⟩

/-- `operator()(DidCloseTextDocumentParams const&)`: logs. -/
def onDidClose (s : LanguageServer) (didClose : DidCloseTextDocumentParams) : LanguageServer :=
  s.logLine (.didClose didClose.textDocument.uri)

end LanguageServer

/-! ## Reference notions used to state the properties -/

/-- The offsets at which `pat` occurs in `s`, in increasing order. -/
def occurrences (s pat : Text) : List Nat :=
  (List.range (s.length + 1)).filter fun i => occursAt s pat i

/-- The occurrences of `pat` among the `n` candidates from `pos` on. -/
def occurrencesFrom (s pat : Text) : Nat → Nat → List Nat
  | 0, _ => []
  | n + 1, pos =>
    if occursAt s pat pos then pos :: occurrencesFrom s pat n (pos + 1)
    else occurrencesFrom s pat n (pos + 1)

/-- The byte offsets addressed by a range in a text: both endpoints are positions of
the text and the start is not after the end. `none` for any other range. -/
def Range.offsets (t : Text) (r : Range) : Option (Nat × Nat) :=
  match offsetOf t r.start, offsetOf t r.end with
  | some s, some e => if s ≤ e then some (s, e) else none
  | _, _ => none

/-- The reference direct splice: the text before the range, the new text, the text
after the range. A range that addresses nothing leaves the text as it is. -/
def referenceSplice (t : Text) (r : Range) (newText : Text) : Text :=
  match r.offsets t with
  | some (s, e) => t.take s ++ newText ++ t.drop e
  | none => t

/-- The reference effect of one content change on a text. -/
def referenceChange (t : Text) : TextDocumentContentChangeEvent → Text
  | .ranged range newText => referenceSplice t range newText
  | .full newText => newText

/-- Whether a content change applies to a text: a full replacement always does, a
ranged change when its range addresses a span of the text. -/
def changeApplies (t : Text) : TextDocumentContentChangeEvent → Bool
  | .ranged range _ => (range.offsets t).isSome
  | .full _ => true

/-- Whether every change of a batch applies, each one to the text produced by the
changes before it. -/
def batchApplies : Text → List TextDocumentContentChangeEvent → Bool
  | _, [] => true
  | t, change :: rest => changeApplies t change && batchApplies (referenceChange t change) rest

/-- The lines that a debug build logs for a batch of content changes. -/
def changeLog (debug : Bool) (changes : List TextDocumentContentChangeEvent) : List LogEntry :=
  if debug then
    changes.filterMap fun
      | .ranged range text => some (LogEntry.didChangeRanged range text)
      | .full _ => none
  else []

/-- Strict lexicographic order on positions. -/
def Position.lt (p q : Position) : Prop :=
  p.line < q.line ∨ (p.line = q.line ∧ p.column < q.column)

/-- Whether an offset of a text is a character boundary: the end of the text, or an
offset whose byte is not a UTF-8 continuation byte. -/
def isBoundary (t : Text) (o : Nat) : Bool :=
  match t.get? o with
  | none => decide (o = t.length)
  | some b => decide (b = newline ∨ 0 < utf16Units b)

/-! ## Example states -/

/-- A server in which one document has been opened. -/
def exampleServer (env : Environment) : LanguageServer :=
  (LanguageServer.create env).onDidOpen ⟨⟨"file:///a.sol", "solidity", 5, bytes "abc"⟩⟩

/-- The document of `exampleServer`. -/
def exampleFile : File :=
  ⟨"file:///a.sol", "solidity", 5, ⟨bytes "abc"⟩⟩

/-! # Theorems -/

open LanguageServer

/-! ## `find` and the loop of `validate` -/

theorem occurrencesFrom_eq_filter (s pat : Text) (n pos : Nat) :
    occurrencesFrom s pat n pos = (List.range' pos n).filter fun i => occursAt s pat i := by
  induction n generalizing pos with
  | zero => simp [occurrencesFrom]
  | succ n ih =>
    simp only [occurrencesFrom, List.range', List.filter_cons, ih]

theorem occurrencesFrom_zero_eq (s pat : Text) :
    occurrencesFrom s pat (s.length + 1) 0 = occurrences s pat := by
  rw [occurrencesFrom_eq_filter, occurrences, List.range_eq_range']

theorem findFrom_none (s pat : Text) (n pos : Nat) (h : findFrom s pat n pos = none) :
    occurrencesFrom s pat n pos = [] := by
  induction n generalizing pos with
  | zero => rfl
  | succ n ih =>
    simp only [findFrom] at h
    split at h
    · cases h
    · rename_i hocc
      simp only [occurrencesFrom, hocc]
      exact ih _ h

theorem findFrom_some (s pat : Text) (n pos p : Nat) (h : findFrom s pat n pos = some p) :
    pos ≤ p ∧ p < pos + n ∧
      occurrencesFrom s pat n pos = p :: occurrencesFrom s pat (pos + n - (p + 1)) (p + 1) := by
  induction n generalizing pos with
  | zero => simp [findFrom] at h
  | succ n ih =>
    simp only [findFrom] at h
    split at h
    · rename_i hocc
      cases h
      refine ⟨le_refl _, by omega, ?_⟩
      simp only [occurrencesFrom, hocc, if_true]
      have hn : p + (n + 1) - (p + 1) = n := by omega
      rw [hn]
    · rename_i hocc
      obtain ⟨h1, h2, h3⟩ := ih _ h
      refine ⟨by omega, by omega, ?_⟩
      have hn : pos + 1 + n - (p + 1) = pos + (n + 1) - (p + 1) := by omega
      simp only [occurrencesFrom, hocc]
      rw [h3, hn]
      rfl

theorem validateLoop_eq (file : File) (fuel pos : Nat) (acc : List Diagnostic)
    (hfuel : file.str.length + 1 - pos ≤ fuel) :
    validateLoop file fuel (find file.str fixme pos) acc =
      acc ++ (occurrencesFrom file.str fixme (file.str.length + 1 - pos) pos).map
        (fixmeDiagnostic file) := by
  induction fuel generalizing pos acc with
  | zero =>
    have h0 : file.str.length + 1 - pos = 0 := by omega
    simp [validateLoop, h0, occurrencesFrom]
  | succ fuel ih =>
    cases hfind : find file.str fixme pos with
    | none =>
      rw [find] at hfind
      simp [validateLoop, findFrom_none _ _ _ _ hfind]
    | some p =>
      have hf := hfind
      rw [find] at hf
      obtain ⟨h1, h2, h3⟩ := findFrom_some _ _ _ _ _ hf
      have hn : pos + (file.str.length + 1 - pos) - (p + 1) = file.str.length + 1 - (p + 1) := by
        omega
      rw [validateLoop, ih (p + 1) _ (by omega), h3, hn]
      simp

theorem validateLoop_occurrences (file : File) :
    validateLoop file (file.str.length + 1) (find file.str fixme 0) [] =
      (occurrences file.str fixme).map (fixmeDiagnostic file) := by
  rw [validateLoop_eq file _ 0 [] (by omega)]
  simp [occurrencesFrom_zero_eq]

theorem occursAt_split (s pat : Text) (i : Nat) (h : occursAt s pat i = true) :
    s = s.take i ++ pat ++ s.drop (i + pat.length) := by
  simp only [occursAt, decide_eq_true_eq] at h
  conv_lhs => rw [← List.take_append_drop i s, ← List.take_append_drop pat.length (s.drop i), h]
  simp [List.drop_drop, Nat.add_comm]

theorem occursAt_fixme_bound (s : Text) (i : Nat) (h : occursAt s fixme i = true) :
    i + 5 ≤ s.length := by
  simp only [occursAt, decide_eq_true_eq] at h
  have hl := congrArg List.length h
  simp [fixme] at hl
  omega

theorem mem_occurrences_fixme (s : Text) (i : Nat) :
    i ∈ occurrences s fixme ↔ (s.drop i).take 5 = fixme := by
  constructor
  · intro h
    simp only [occurrences, List.mem_filter, occursAt, decide_eq_true_eq] at h
    exact h.2
  · intro h
    have hocc : occursAt s fixme i = true := by
      simpa [occursAt, fixme] using h
    have hb := occursAt_fixme_bound s i hocc
    simp only [occurrences, List.mem_filter, List.mem_range]
    exact ⟨by omega, hocc⟩

theorem occurrences_sorted (s pat : Text) : (occurrences s pat).Sorted (· < ·) := by
  unfold occurrences
  exact List.Pairwise.filter _ (List.pairwise_lt_range _)

theorem occurrences_eq_nil (t : Text) (h : ∀ i, (t.drop i).take 5 ≠ bytes "FIXME") :
    occurrences t fixme = [] := by
  rw [List.eq_nil_iff_forall_not_mem]
  intro i hi
  exact h i ((mem_occurrences_fixme t i).1 hi)

theorem validateInto_eq (file : File) (result : PublishDiagnosticsList) :
    validateInto file result =
      result ++ [⟨file.uri, (occurrences file.str fixme).map (fixmeDiagnostic file)⟩] := by
  rw [validateInto, validateLoop_occurrences]

theorem validate_eq (s : LanguageServer) (file : File) :
    validate s file =
      { s with sent := s.sent ++
          [Outgoing.notify ⟨file.uri, (occurrences file.str fixme).map (fixmeDiagnostic file)⟩] } := by
  rw [validate, validateInto_eq]
  rfl

/-! ## Positions, offsets and lines -/

theorem lines_eq_cons (t : Text) : lines t = (lines t).headD [] :: (lines t).tail := by
  cases t with
  | nil => rfl
  | cons b bs =>
    by_cases hb : b = newline <;> simp [lines, hb]

theorem lineLength_zero (t : Text) :
    lineLength t 0 = some (utf16Length ((lines t).headD [])) := by
  rw [lineLength, lines_eq_cons]
  simp

theorem lineLength_cons_newline (t : Text) (k : Nat) :
    lineLength (newline :: t) (k + 1) = lineLength t k := by
  simp [lineLength, lines]

theorem lineLength_cons_succ (b : Nat) (t : Text) (k : Nat) (hb : b ≠ newline) :
    lineLength (b :: t) (k + 1) = lineLength t (k + 1) := by
  rw [lineLength, lineLength]
  conv_rhs => rw [lines_eq_cons]
  simp [lines, hb]

theorem lineLength_cons_zero (b : Nat) (t : Text) (hb : b ≠ newline) :
    lineLength (b :: t) 0 = some (utf16Units b + utf16Length ((lines t).headD [])) := by
  simp [lineLength, lines, hb, utf16Length]

/-- The walk of `positionOf` over a piece `pre` of a text, started at `p`: the line
reached is `k` lines further, the column reached counts from the column of `p` when
`k = 0` and from zero otherwise, and line `k` of `pre ++ rest` is as long as the
column reached plus the first line of `rest`. -/
theorem walk_lineLength (pre rest : Text) (p : Position) :
    ∃ k c, (pre.foldl Position.advance p).line = p.line + k ∧
      (pre.foldl Position.advance p).column = (if k = 0 then p.column else 0) + c ∧
      lineLength (pre ++ rest) k = some (c + utf16Length ((lines rest).headD [])) := by
  induction pre generalizing p with
  | nil =>
    refine ⟨0, 0, by simp, by simp, ?_⟩
    simp [lineLength_zero]
  | cons b pre ih =>
    obtain ⟨k, c, h1, h2, h3⟩ := ih (p.advance b)
    by_cases hb : b = newline
    · subst hb
      have hadv : p.advance newline = ⟨p.line + 1, 0⟩ := by simp [Position.advance]
      rw [hadv] at h1 h2
      simp only [ite_self, Nat.zero_add] at h1 h2
      refine ⟨k + 1, c, ?_, ?_, ?_⟩
      · rw [List.foldl_cons, hadv, h1]; omega
      · rw [List.foldl_cons, hadv, h2]; simp
      · simpa [lineLength_cons_newline] using h3
    · have hadv : p.advance b = ⟨p.line, p.column + utf16Units b⟩ := by
        simp [Position.advance, hb]
      rw [hadv] at h1 h2
      cases k with
      | zero =>
        simp only [if_true, Nat.add_zero] at h1 h2
        refine ⟨0, utf16Units b + c, ?_, ?_, ?_⟩
        · rw [List.foldl_cons, hadv, h1]; rfl
        · rw [List.foldl_cons, hadv, h2]; simp only [if_true]; omega
        · rw [lineLength_zero] at h3
          rw [List.cons_append, lineLength_cons_zero _ _ hb]
          simp only [Option.some.injEq] at h3 ⊢
          omega
      | succ k =>
        simp only [Nat.add_one_ne_zero, if_false, Nat.zero_add] at h1 h2
        refine ⟨k + 1, c, ?_, ?_, ?_⟩
        · rw [List.foldl_cons, hadv, h1]
        · rw [List.foldl_cons, hadv, h2]; simp
        · rw [List.cons_append, lineLength_cons_succ _ _ _ hb]
          exact h3

theorem positionOf_lineLength (t : Text) (o : Nat) :
    lineLength t (positionOf t o).line =
      some ((positionOf t o).column + utf16Length ((lines (t.drop o)).headD [])) := by
  obtain ⟨k, c, h1, h2, h3⟩ := walk_lineLength (t.take o) (t.drop o) ⟨0, 0⟩
  rw [List.take_append_drop] at h3
  have hl : (positionOf t o).line = k := by simpa [positionOf] using h1
  have hc : (positionOf t o).column = c := by
    rw [positionOf, h2]; split <;> simp
  rw [hl, hc, h3]

theorem lines_head_fixme (post : Text) :
    utf16Length ((lines (fixme ++ post)).headD []) =
      5 + utf16Length ((lines post).headD []) := by
  simp [fixme, lines, newline, utf16Length, utf16Units]
  omega

theorem positionOf_after_fixme (s : Text) (i : Nat) (h : (s.drop i).take 5 = fixme) :
    positionOf s (i + 5) = ⟨(positionOf s i).line, (positionOf s i).column + 5⟩ := by
  have ht : s.take (i + 5) = s.take i ++ fixme := by
    rw [List.take_add, h]
  rw [positionOf, ht, List.foldl_append, ← positionOf]
  simp [fixme, Position.advance, newline, utf16Units]

theorem positionOf_succ (t : Text) (o : Nat) (b : Nat) (h : t.get? o = some b) :
    positionOf t (o + 1) = (positionOf t o).advance b := by
  simp only [List.get?_eq_getElem?] at h
  simp [positionOf, List.take_succ, h, List.foldl_append]

theorem positionOf_of_length_le (t : Text) (o : Nat) (h : t.length ≤ o) :
    positionOf t o = positionOf t t.length := by
  simp [positionOf, List.take_of_length_le h]

theorem Position.le_advance (p : Position) (b : Nat) : Position.le p (p.advance b) := by
  unfold Position.advance Position.le
  split
  · left; simp
  · right; simp

theorem Position.lt_advance (p : Position) (b : Nat) (hb : b = newline ∨ 0 < utf16Units b) :
    Position.lt p (p.advance b) := by
  unfold Position.advance Position.lt
  split
  · left; simp
  · rename_i hn
    right
    rcases hb with hb | hb
    · exact absurd hb hn
    · simp; omega

theorem Position.lt_of_lt_of_le (p q r : Position) (h1 : Position.lt p q)
    (h2 : Position.le q r) : Position.lt p r := by
  unfold Position.lt at *
  unfold Position.le at h2
  omega

theorem Position.lt_irrefl (p : Position) : ¬Position.lt p p := by
  unfold Position.lt
  omega

/-- Positions never decrease along the text. -/
theorem positionOf_mono (t : Text) (o k : Nat) :
    Position.le (positionOf t o) (positionOf t (o + k)) := by
  induction k with
  | zero => right; exact ⟨rfl, le_refl _⟩
  | succ k ih =>
    cases hg : t.get? (o + k) with
    | none =>
      have hlen : t.length ≤ o + k := by
        simp only [List.get?_eq_getElem?] at hg
        exact List.getElem?_eq_none_iff.mp hg
      rw [← Nat.add_assoc, positionOf_of_length_le t (o + k + 1) (by omega),
        ← positionOf_of_length_le t (o + k) hlen]
      exact ih
    | some b =>
      rw [← Nat.add_assoc, positionOf_succ t (o + k) b hg]
      have h2 := Position.le_advance (positionOf t (o + k)) b
      unfold Position.le at *
      omega

/-- Past a character boundary inside the text, the position is strictly larger. -/
theorem positionOf_lt_of_boundary (t : Text) (o k : Nat) (ho : o < t.length)
    (hb : isBoundary t o = true) :
    Position.lt (positionOf t o) (positionOf t (o + (k + 1))) := by
  have hg : t.get? o = some (t.get ⟨o, ho⟩) := List.get?_eq_get ho
  have hb2 : t.get ⟨o, ho⟩ = newline ∨ 0 < utf16Units (t.get ⟨o, ho⟩) := by
    unfold isBoundary at hb
    rw [hg] at hb
    exact of_decide_eq_true hb
  have h1 : Position.lt (positionOf t o) (positionOf t (o + 1)) := by
    rw [positionOf_succ t o _ hg]
    exact Position.lt_advance _ _ hb2
  have h2 := positionOf_mono t (o + 1) k
  have h3 : o + 1 + k = o + (k + 1) := by omega
  rw [h3] at h2
  exact Position.lt_of_lt_of_le _ _ _ h1 h2

theorem mem_offsetsDownFrom (n o : Nat) : o ∈ offsetsDownFrom n ↔ o ≤ n := by
  induction n with
  | zero => simp [offsetsDownFrom]
  | succ n ih =>
    simp only [offsetsDownFrom, List.mem_cons, ih]
    omega

theorem find?_offsetsDownFrom (P : Nat → Bool) (n o : Nat) (ho : o ≤ n) (hP : P o = true)
    (hlast : ∀ k, o + (k + 1) ≤ n → P (o + (k + 1)) = false) :
    (offsetsDownFrom n).find? P = some o := by
  induction n with
  | zero =>
    have : o = 0 := by omega
    subst this
    simp [offsetsDownFrom, hP]
  | succ n ih =>
    by_cases hon : o = n + 1
    · subst hon
      simp [offsetsDownFrom, hP]
    · have hn : P (n + 1) = false := by
        have := hlast (n - o) (by omega)
        have e : o + (n - o + 1) = n + 1 := by omega
        rwa [e] at this
      simp only [offsetsDownFrom, List.find?_cons, hn]
      exact ih (by omega) (fun k hk => hlast k (by omega))

theorem find?_offsetsDownFrom_ge (P : Nat → Bool) (n o : Nat) (ho : o ≤ n) (hP : P o = true) :
    ∃ e, (offsetsDownFrom n).find? P = some e ∧ o ≤ e ∧ e ≤ n := by
  induction n with
  | zero =>
    have : o = 0 := by omega
    subst this
    exact ⟨0, by simp [offsetsDownFrom, hP], le_refl _, le_refl _⟩
  | succ n ih =>
    cases hn : P (n + 1) with
    | true => exact ⟨n + 1, by simp [offsetsDownFrom, hn], ho, le_refl _⟩
    | false =>
      have hon : o ≤ n := by
        by_contra hc
        have : o = n + 1 := by omega
        rw [this, hn] at hP
        cases hP
      obtain ⟨e, h1, h2, h3⟩ := ih hon
      exact ⟨e, by simp [offsetsDownFrom, hn, h1], h2, by omega⟩

/-- The spec's round trip, first half: `positionOf(offsetOf(p)) = p`, with the offset
inside the text. -/
theorem positionOf_offsetOf (t : Text) (p : Position) (o : Nat) (h : offsetOf t p = some o) :
    positionOf t o = p ∧ o ≤ t.length := by
  unfold offsetOf at h
  have h1 := List.find?_some h
  have h2 := List.mem_of_find?_eq_some h
  exact ⟨by simpa using h1, (mem_offsetsDownFrom _ _).1 h2⟩

/-- The spec's round trip, second half: `offsetOf(positionOf(o)) = o` for every
character boundary `o` of the text. -/
theorem offsetOf_positionOf (t : Text) (o : Nat) (ho : o ≤ t.length)
    (hb : isBoundary t o = true) : offsetOf t (positionOf t o) = some o := by
  unfold offsetOf
  apply find?_offsetsDownFrom _ _ _ ho (by simp)
  intro k hk
  have hlt := positionOf_lt_of_boundary t o k (by omega) hb
  simp only [decide_eq_false_iff_not]
  intro heq
  rw [heq] at hlt
  exact Position.lt_irrefl _ hlt

/-- The offset of the position of `o` is at least `o`. -/
theorem offsetOf_positionOf_ge (t : Text) (o : Nat) (ho : o ≤ t.length) :
    ∃ e, offsetOf t (positionOf t o) = some e ∧ o ≤ e ∧ e ≤ t.length := by
  unfold offsetOf
  exact find?_offsetsDownFrom_ge _ _ _ ho (by simp)

theorem offsetOf_positionOf_isSome (t : Text) (o : Nat) (ho : o ≤ t.length) :
    (offsetOf t (positionOf t o)).isSome = true := by
  rw [offsetOf, List.find?_isSome]
  exact ⟨o, (mem_offsetsDownFrom _ _).2 ho, by simp⟩

theorem isBoundary_of_fixme (s : Text) (i : Nat) (h : (s.drop i).take 5 = fixme) :
    isBoundary s i = true := by
  have hg : s.get? i = some 70 := by
    have h0 := congrArg (fun l => l.get? 0) h
    simp only [List.get?_eq_getElem?] at h0 ⊢
    simpa [fixme, List.getElem?_take, List.getElem?_drop] using h0
  unfold isBoundary
  rw [hg]
  simp [utf16Units]

/-! ## The document store -/

theorem VFS.find_uri (v : VFS) (uri : String) (f : File) (h : v.find uri = some f) :
    f.uri = uri := by
  have := List.find?_some h
  simpa using this

theorem storeFile_find_same (g : File) (fs : List File) (f : File)
    (h : fs.find? (fun x => decide (x.uri = g.uri)) = some f) :
    (storeFile g fs).find? (fun x => decide (x.uri = g.uri)) = some g := by
  induction fs with
  | nil => simp at h
  | cons a fs ih =>
    by_cases ha : a.uri = g.uri
    · simp [storeFile, ha]
    · simp only [List.find?_cons, ha, decide_False] at h
      simp [storeFile, ha, ih h]

theorem storeFile_find_other (g : File) (fs : List File) (uri : String) (hne : g.uri ≠ uri) :
    (storeFile g fs).find? (fun x => decide (x.uri = uri)) =
      fs.find? (fun x => decide (x.uri = uri)) := by
  induction fs with
  | nil => rfl
  | cons a fs ih =>
    by_cases ha : a.uri = g.uri
    · have hau : a.uri ≠ uri := by rw [ha]; exact hne
      simp [storeFile, ha, hne, hau]
    · by_cases hu : a.uri = uri
      · have hug : ¬uri = g.uri := fun hc => hne hc.symm
        simp [storeFile, hu, hug]
      · simp [storeFile, ha, hu, ih]

theorem VFS.find_store_same (v : VFS) (uri : String) (f g : File)
    (h : v.find uri = some f) (hg : g.uri = uri) : (v.store g).find uri = some g := by
  subst hg
  exact storeFile_find_same g v.files f h

theorem VFS.find_store_other (v : VFS) (uri : String) (g : File) (hne : g.uri ≠ uri) :
    (v.store g).find uri = v.find uri :=
  storeFile_find_other g v.files uri hne

theorem VFS.find_insert (v : VFS) (policy : ConflictPolicy) (uri languageId : String)
    (version : Int) (text : Text) :
    (v.insert policy uri languageId version text).1.find uri =
      some (v.insert policy uri languageId version text).2 ∧
    (v.insert policy uri languageId version text).2.uri = uri := by
  unfold VFS.insert
  cases hf : v.find uri with
  | none =>
    simp only [VFS.find] at hf ⊢
    simp [List.find?_append, hf]
  | some existing =>
    cases policy with
    | overwrite =>
      exact ⟨VFS.find_store_same v uri existing _ hf rfl, rfl⟩
    | reject =>
      exact ⟨hf, VFS.find_uri v uri existing hf⟩

/-! ## The loop over the content changes -/

theorem modify_of_offsets (file : File) (r : Range) (newText : Text) (s e : Nat)
    (h : r.offsets file.buffer.text = some (s, e)) :
    file.modify r newText = .ok { file with buffer := ⟨referenceSplice file.buffer.text r newText⟩ } := by
  have h2 := h
  simp only [Range.offsets] at h
  simp only [File.modify, TextBuffer.modify, referenceSplice, h2]
  split at h
  · split at h
    · rename_i hs he hle
      simp only [Option.some.injEq, Prod.mk.injEq] at h
      obtain ⟨rfl, rfl⟩ := h
      simp [hs, he, hle]
    · cases h
  · cases h

theorem modify_of_not_offsets (file : File) (r : Range) (newText : Text)
    (h : r.offsets file.buffer.text = none) :
    ∃ e, file.modify r newText = .error e := by
  simp only [Range.offsets] at h
  simp only [File.modify, TextBuffer.modify]
  cases hs : offsetOf file.buffer.text r.start with
  | none => exact ⟨_, rfl⟩
  | some s =>
    cases he : offsetOf file.buffer.text r.end with
    | none => exact ⟨_, rfl⟩
    | some e =>
      simp only [hs, he] at h
      split at h
      · cases h
      · rename_i hle
        exact ⟨VfsError.protocolViolation, by simp [hle]⟩

theorem applyContentChange_of_applies (debug : Bool) (file : File)
    (c : TextDocumentContentChangeEvent) (h : changeApplies file.buffer.text c = true) :
    applyContentChange debug file c =
      (changeLog debug [c], .ok { file with buffer := ⟨referenceChange file.buffer.text c⟩ }) := by
  cases c with
  | ranged r t =>
    simp only [changeApplies, Option.isSome_iff_exists] at h
    obtain ⟨⟨s, e⟩, h⟩ := h
    simp only [applyContentChange, modify_of_offsets file r t s e h, referenceChange, changeLog]
    cases debug <;> simp
  | full t =>
    simp only [applyContentChange, referenceChange, changeLog, File.replace, TextBuffer.replace]
    cases debug <;> simp

theorem applyContentChange_of_not_applies (debug : Bool) (file : File)
    (c : TextDocumentContentChangeEvent) (h : changeApplies file.buffer.text c = false) :
    ∃ e, applyContentChange debug file c = (changeLog debug [c], .error e) ∧
      referenceChange file.buffer.text c = file.buffer.text := by
  cases c with
  | ranged r t =>
    have h : r.offsets file.buffer.text = none := by
      cases ho : r.offsets file.buffer.text with
      | none => rfl
      | some x => simp [changeApplies, ho] at h
    obtain ⟨e, he⟩ := modify_of_not_offsets file r t h
    refine ⟨e, ?_, ?_⟩
    · simp only [applyContentChange, he, changeLog]
      cases debug <;> simp
    · simp [referenceChange, referenceSplice, h]
  | full t => simp [changeApplies] at h

theorem changeLog_cons (debug : Bool) (c : TextDocumentContentChangeEvent)
    (cs : List TextDocumentContentChangeEvent) :
    changeLog debug (c :: cs) = changeLog debug [c] ++ changeLog debug cs := by
  cases debug
  · simp [changeLog]
  · cases c <;> simp [changeLog, List.filterMap_cons]

/-- A batch whose changes all apply: the loop ends normally with the reference fold
of the changes as text; uri, language and version are untouched. -/
theorem applyContentChanges_of_applies (env : Environment) (file : File)
    (changes : List TextDocumentContentChangeEvent)
    (h : batchApplies file.buffer.text changes = true) :
    applyContentChanges env file changes =
      ⟨{ file with buffer := ⟨changes.foldl referenceChange file.buffer.text⟩ },
        changeLog env.debug changes, none⟩ := by
  induction changes generalizing file with
  | nil => cases h1 : env.debug <;> simp [applyContentChanges, changeLog]
  | cons c cs ih =>
    simp only [batchApplies, Bool.and_eq_true] at h
    rw [applyContentChanges, applyContentChange_of_applies env.debug file c h.1]
    simp only
    rw [ih _ h.2, changeLog_cons env.debug c cs]
    simp

theorem applyContentChange_buffer_only (debug : Bool) (file : File) (uri languageId : String)
    (version : Int) (c : TextDocumentContentChangeEvent) :
    applyContentChange debug ⟨uri, languageId, version, file.buffer⟩ c =
      ((applyContentChange debug file c).1,
        match (applyContentChange debug file c).2 with
        | .ok f => .ok ⟨uri, languageId, version, f.buffer⟩
        | .error e => .error e) := by
  cases c with
  | ranged r t =>
    simp only [applyContentChange, File.modify]
    cases file.buffer.modify r t <;> rfl
  | full t => rfl

/-- The loop reads and writes the buffer only: uri, language and version of the
document pass through, and do not influence the text, the log or the failure. -/
theorem applyContentChanges_buffer_only (env : Environment) (file : File)
    (uri languageId : String) (version : Int)
    (changes : List TextDocumentContentChangeEvent) :
    applyContentChanges env ⟨uri, languageId, version, file.buffer⟩ changes =
      ⟨⟨uri, languageId, version, (applyContentChanges env file changes).file.buffer⟩,
        (applyContentChanges env file changes).log,
        (applyContentChanges env file changes).raised⟩ := by
  induction changes generalizing file with
  | nil => rfl
  | cons c cs ih =>
    rw [applyContentChanges, applyContentChanges, applyContentChange_buffer_only]
    rcases hc : applyContentChange env.debug file c with ⟨l, r⟩
    cases r with
    | ok f =>
      simp only
      rw [ih f]
    | error e =>
      simp only
      cases env.onModifyFailure with
      | unwind => rfl
      | dropped =>
        simp only
        rw [ih file]

theorem applyContentChanges_setVersion (env : Environment) (file : File) (v : Int)
    (changes : List TextDocumentContentChangeEvent) :
    applyContentChanges env (file.setVersion v) changes =
      ⟨(applyContentChanges env file changes).file.setVersion v,
        (applyContentChanges env file changes).log,
        (applyContentChanges env file changes).raised⟩ := by
  have h1 := applyContentChanges_buffer_only env file file.uri file.languageId v changes
  have h2 := applyContentChanges_buffer_only env file file.uri file.languageId file.version changes
  have h3 : (⟨file.uri, file.languageId, file.version, file.buffer⟩ : File) = file := rfl
  rw [h3] at h2
  have h4 : file.setVersion v = ⟨file.uri, file.languageId, v, file.buffer⟩ := rfl
  rw [h4, h1]
  conv_rhs => rw [h2]
  rfl

theorem applyContentChanges_uri (env : Environment) (file : File)
    (changes : List TextDocumentContentChangeEvent) :
    (applyContentChanges env file changes).file.uri = file.uri ∧
    (applyContentChanges env file changes).file.version = file.version := by
  have h2 := applyContentChanges_buffer_only env file file.uri file.languageId file.version changes
  have h3 : (⟨file.uri, file.languageId, file.version, file.buffer⟩ : File) = file := rfl
  rw [h3] at h2
  rw [h2]
  exact ⟨rfl, rfl⟩

/-- When failures are dropped, the loop always ends normally, with the reference
fold as text (a change that does not apply leaves the text as it is). -/
theorem applyContentChanges_dropped (env : Environment) (file : File)
    (changes : List TextDocumentContentChangeEvent)
    (hmode : env.onModifyFailure = FailureMode.dropped) :
    applyContentChanges env file changes =
      ⟨{ file with buffer := ⟨changes.foldl referenceChange file.buffer.text⟩ },
        changeLog env.debug changes, none⟩ := by
  induction changes generalizing file with
  | nil => cases h1 : env.debug <;> simp [applyContentChanges, changeLog]
  | cons c cs ih =>
    cases hc : changeApplies file.buffer.text c with
    | true =>
      rw [applyContentChanges, applyContentChange_of_applies env.debug file c hc]
      simp only
      rw [ih _, changeLog_cons env.debug c cs]
      simp
    | false =>
      obtain ⟨e, he, href⟩ := applyContentChange_of_not_applies env.debug file c hc
      rw [applyContentChanges, he]
      simp only [hmode]
      rw [ih _, changeLog_cons env.debug c cs]
      simp [href]

/-- When a failure unwinds the loop, the loop stops at the first change that does not
apply, with the text that the changes before it produced. -/
theorem applyContentChanges_unwind (env : Environment) (file : File)
    (before after : List TextDocumentContentChangeEvent) (c : TextDocumentContentChangeEvent)
    (hmode : env.onModifyFailure = FailureMode.unwind)
    (hbefore : batchApplies file.buffer.text before = true)
    (hc : changeApplies (before.foldl referenceChange file.buffer.text) c = false) :
    ∃ e, applyContentChanges env file (before ++ c :: after) =
      ⟨{ file with buffer := ⟨before.foldl referenceChange file.buffer.text⟩ },
        changeLog env.debug (before ++ [c]), some e⟩ := by
  induction before generalizing file with
  | nil =>
    obtain ⟨e, he, _⟩ := applyContentChange_of_not_applies env.debug file c hc
    refine ⟨e, ?_⟩
    simp only [List.nil_append, applyContentChanges, he, hmode, List.foldl_nil]
  | cons b bs ih =>
    simp only [batchApplies, Bool.and_eq_true] at hbefore
    obtain ⟨e, he⟩ := ih { file with buffer := ⟨referenceChange file.buffer.text b⟩ }
      hbefore.2 hc
    refine ⟨e, ?_⟩
    rw [List.cons_append, applyContentChanges,
      applyContentChange_of_applies env.debug file b hbefore.1]
    simp only
    rw [he, List.cons_append, changeLog_cons env.debug b (bs ++ [c])]
    simp

theorem batchApplies_false_split (t : Text) (changes : List TextDocumentContentChangeEvent)
    (h : batchApplies t changes = false) :
    ∃ before c after, changes = before ++ c :: after ∧
      batchApplies t before = true ∧
      changeApplies (before.foldl referenceChange t) c = false := by
  induction changes generalizing t with
  | nil => simp [batchApplies] at h
  | cons x xs ih =>
    cases hx : changeApplies t x with
    | false => exact ⟨[], x, xs, rfl, rfl, hx⟩
    | true =>
      simp only [batchApplies, hx, Bool.true_and] at h
      obtain ⟨before, c, after, h1, h2, h3⟩ := ih _ h
      refine ⟨x :: before, c, after, by rw [h1]; rfl, ?_, h3⟩
      simp [batchApplies, hx, h2]

theorem foldl_referenceChange_skip (t : Text)
    (before after : List TextDocumentContentChangeEvent) (c : TextDocumentContentChangeEvent)
    (hc : changeApplies (before.foldl referenceChange t) c = false) :
    (before ++ c :: after).foldl referenceChange t =
      (before ++ after).foldl referenceChange t := by
  have hskip : referenceChange (before.foldl referenceChange t) c =
      before.foldl referenceChange t := by
    cases c with
    | ranged r n =>
      have h : r.offsets (before.foldl referenceChange t) = none := by
        cases ho : r.offsets (before.foldl referenceChange t) with
        | none => rfl
        | some x => simp [changeApplies, ho] at hc
      simp [referenceChange, referenceSplice, h]
    | full n => simp [changeApplies] at hc
  simp only [List.foldl_append, List.foldl_cons, hskip]

/-! ## The handlers -/

/-- What `onDidChange` does for an open document whose loop ends normally. -/
theorem onDidChange_found (s : LanguageServer) (p : DidChangeTextDocumentParams) (file : File)
    (hfind : s.m_vfs.find p.textDocument.uri = some file) :
    onDidChange s p =
      (let file1 := match p.textDocument.version with
          | some v => file.setVersion v
          | none => file
        let r := applyContentChanges s.env file1 p.contentChanges
        let s1 := { s with m_vfs := s.m_vfs.store r.file, log := s.log ++ r.log }
        match r.raised with
        | none => ⟨validate s1 r.file, none⟩
        | some e => ⟨s1, some e⟩) := by
  simp only [onDidChange, hfind]

/-- The document after a batch whose changes all apply: stored under the same uri,
with the version of the message when it has one and the reference fold as text;
one notification for it is sent. -/
theorem onDidChange_of_applies (s : LanguageServer) (p : DidChangeTextDocumentParams)
    (file : File) (hfind : s.m_vfs.find p.textDocument.uri = some file)
    (happly : batchApplies file.str p.contentChanges = true) :
    ∃ doc : File,
      doc = ⟨file.uri, file.languageId, p.textDocument.version.getD file.version,
        ⟨p.contentChanges.foldl referenceChange file.str⟩⟩ ∧
      (onDidChange s p).raised = none ∧
      (onDidChange s p).server.m_vfs.find p.textDocument.uri = some doc ∧
      (onDidChange s p).server.sent = s.sent ++
        [Outgoing.notify ⟨p.textDocument.uri, (occurrences doc.str fixme).map (fixmeDiagnostic doc)⟩] := by
  have huri := VFS.find_uri _ _ _ hfind
  have happly2 : ∀ f : File, f.buffer = file.buffer →
      batchApplies f.buffer.text p.contentChanges = true := by
    intro f hf; rw [hf]; exact happly
  refine ⟨_, rfl, ?_⟩
  rw [onDidChange_found s p file hfind]
  cases hv : p.textDocument.version with
  | none =>
    simp only [Option.getD_none]
    rw [applyContentChanges_of_applies s.env file _ (happly2 file rfl)]
    refine ⟨?_, ?_, ?_⟩
    · rfl
    · simp only [validate_eq]
      exact VFS.find_store_same _ _ file _ hfind huri
    · simp only [validate_eq]
      rw [← huri]
      rfl
  | some v =>
    simp only [Option.getD_some]
    rw [applyContentChanges_of_applies s.env (file.setVersion v) _ (happly2 _ rfl)]
    refine ⟨?_, ?_, ?_⟩
    · rfl
    · simp only [validate_eq]
      exact VFS.find_store_same _ _ file _ hfind huri
    · simp only [validate_eq]
      rw [← huri]
      rfl

/-- What `onDidOpen` leaves: the document returned by the store is found under the uri
and one notification for it is sent. -/
theorem onDidOpen_eq (s : LanguageServer) (args : DidOpenTextDocumentParams) :
    ∃ doc : File,
      (onDidOpen s args).m_vfs.find args.textDocument.uri = some doc ∧
      (onDidOpen s args).sent = s.sent ++
        [Outgoing.notify ⟨args.textDocument.uri,
          (occurrences doc.str fixme).map (fixmeDiagnostic doc)⟩] := by
  obtain ⟨h1, h2⟩ := VFS.find_insert s.m_vfs s.env.onConflict args.textDocument.uri
    args.textDocument.languageId args.textDocument.version args.textDocument.text
  refine ⟨(s.m_vfs.insert s.env.onConflict args.textDocument.uri
    args.textDocument.languageId args.textDocument.version args.textDocument.text).2, ?_, ?_⟩
  · simp only [onDidOpen, validate_eq, logLine]
    exact h1
  · simp only [onDidOpen, validate_eq, logLine]
    rw [h2]

/-- The document after any DidChange for an open document, and what is sent: the
store holds, under the same uri, the document with the version of the message (when
it has one) and the buffer that the loop left; one notification for it is sent
unless a failure unwound the handler. -/
theorem onDidChange_general (s : LanguageServer) (p : DidChangeTextDocumentParams)
    (file : File) (hfind : s.m_vfs.find p.textDocument.uri = some file) :
    (onDidChange s p).server.m_vfs.find p.textDocument.uri =
      some ⟨file.uri, file.languageId, p.textDocument.version.getD file.version,
        (applyContentChanges s.env file p.contentChanges).file.buffer⟩ ∧
    (onDidChange s p).raised = (applyContentChanges s.env file p.contentChanges).raised ∧
    (onDidChange s p).server.sent = s.sent ++
      (match (applyContentChanges s.env file p.contentChanges).raised with
        | none => [Outgoing.notify ⟨p.textDocument.uri,
            (occurrences (applyContentChanges s.env file p.contentChanges).file.str fixme).map
              (fixmeDiagnostic ⟨file.uri, file.languageId,
                p.textDocument.version.getD file.version,
                (applyContentChanges s.env file p.contentChanges).file.buffer⟩)⟩]
        | some _ => []) := by
  have huri := VFS.find_uri _ _ _ hfind
  have hfile1 : (match p.textDocument.version with
      | some v => file.setVersion v
      | none => file) =
      ⟨file.uri, file.languageId, p.textDocument.version.getD file.version, file.buffer⟩ := by
    cases p.textDocument.version <;> rfl
  rw [onDidChange_found s p file hfind]
  simp only [hfile1]
  rw [applyContentChanges_buffer_only]
  simp only
  cases hr : (applyContentChanges s.env file p.contentChanges).raised with
  | none =>
    simp only [validate_eq]
    refine ⟨VFS.find_store_same _ _ file _ hfind huri, trivial, ?_⟩
    rw [← huri]
    rfl
  | some e =>
    simp only
    refine ⟨VFS.find_store_same _ _ file _ hfind huri, trivial, ?_⟩
    simp

theorem onDidChange_log_irrelevant (s : LanguageServer) (log : List LogEntry)
    (p : DidChangeTextDocumentParams) :
    (onDidChange { s with log := log } p).server.m_vfs = (onDidChange s p).server.m_vfs ∧
    (onDidChange { s with log := log } p).server.sent = (onDidChange s p).server.sent ∧
    (onDidChange { s with log := log } p).raised = (onDidChange s p).raised := by
  simp only [onDidChange]
  cases s.m_vfs.find p.textDocument.uri with
  | none => exact ⟨rfl, rfl, rfl⟩
  | some file =>
    simp only
    split <;> simp [validate_eq]

/-! ## C1: The placeholder analysis reports every occurrence -/

/-- C1: `validate(file, result)` appends exactly one PublishDiagnosticsParams, carrying
the uri of the file and one diagnostic per offset at which "FIXME" occurs in the text,
in increasing order of offsets, each from `positionOf(offset)` to five columns further
on the same line, with severity Error and source "solc"; for the text
"hello FIXME world" that is the single range (0, 6)-(0, 11). -/
theorem validate_reports_every_fixme (file : File) (result : PublishDiagnosticsList) :
    (∃ offsets : List Nat,
      (∀ i, i ∈ offsets ↔ (file.str.drop i).take 5 = bytes "FIXME") ∧
      offsets.Sorted (· < ·) ∧
      validateInto file result = result ++
        [{ uri := file.uri
           diagnostics := offsets.map fun o =>
             { range := ⟨positionOf file.str o,
                 ⟨(positionOf file.str o).line, (positionOf file.str o).column + 5⟩⟩
               severity := DiagnosticSeverity.Error
               message := "Hello, FIXME should be fixed."
               source := "solc" } }]) ∧
    validateInto ⟨file.uri, file.languageId, file.version, ⟨bytes "hello FIXME world"⟩⟩ [] =
      [{ uri := file.uri
         diagnostics :=
           [{ range := ⟨⟨0, 6⟩, ⟨0, 11⟩⟩
              severity := DiagnosticSeverity.Error
              message := "Hello, FIXME should be fixed."
              source := "solc" }] }] := by
  refine ⟨⟨occurrences file.str fixme, ?_, occurrences_sorted _ _, ?_⟩, ?_⟩
  · intro i
    rw [mem_occurrences_fixme]
    rfl
  · rw [validateInto_eq]
    rfl
  · rfl

/-! ## C2: One notification per open and per change -/

/-- C2: every DidOpen, and every DidChange for an open document whose changes all
apply, hands exactly one PublishDiagnostics notification to the client, for the uri
of the message; it carries what `validate` finds in the document as the handler
leaves it, and when the text of that document holds no "FIXME" its list of
diagnostics is empty. -/
theorem open_and_change_publish_once (s : LanguageServer)
    (didOpen : DidOpenTextDocumentParams) (didChange : DidChangeTextDocumentParams)
    (file : File) :
    (∃ doc diagnostics,
      (onDidOpen s didOpen).m_vfs.find didOpen.textDocument.uri = some doc ∧
      (onDidOpen s didOpen).sent =
        s.sent ++ [Outgoing.notify ⟨didOpen.textDocument.uri, diagnostics⟩] ∧
      validateInto doc [] = [⟨didOpen.textDocument.uri, diagnostics⟩] ∧
      ((∀ i, (doc.str.drop i).take 5 ≠ bytes "FIXME") → diagnostics = [])) ∧
    (s.m_vfs.find didChange.textDocument.uri = some file →
      batchApplies file.str didChange.contentChanges = true →
      ∃ doc diagnostics,
        (onDidChange s didChange).raised = none ∧
        (onDidChange s didChange).server.m_vfs.find didChange.textDocument.uri = some doc ∧
        (onDidChange s didChange).server.sent =
          s.sent ++ [Outgoing.notify ⟨didChange.textDocument.uri, diagnostics⟩] ∧
        validateInto doc [] = [⟨didChange.textDocument.uri, diagnostics⟩] ∧
        ((∀ i, (doc.str.drop i).take 5 ≠ bytes "FIXME") → diagnostics = [])) := by
  constructor
  · obtain ⟨doc, h1, h2⟩ := onDidOpen_eq s didOpen
    refine ⟨doc, _, h1, h2, ?_, ?_⟩
    · rw [validateInto_eq, VFS.find_uri _ _ _ h1]
      rfl
    · intro h
      rw [occurrences_eq_nil _ h]
      rfl
  · intro hfind happly
    obtain ⟨doc, _, h1, h2, h3⟩ := onDidChange_of_applies s didChange file hfind happly
    refine ⟨doc, _, h1, h2, h3, ?_, ?_⟩
    · rw [validateInto_eq, VFS.find_uri _ _ _ h2]
      rfl
    · intro h
      rw [occurrences_eq_nil _ h]
      rfl

theorem open_and_change_publish_once_witness :
    (exampleServer ⟨true, .overwrite, .unwind⟩).m_vfs.find "file:///a.sol" = some exampleFile ∧
    batchApplies exampleFile.str
      [.ranged ⟨⟨0, 1⟩, ⟨0, 2⟩⟩ (bytes "é"), .full (bytes "no marker")] = true ∧
    (∃ doc diagnostics,
      (onDidOpen (exampleServer ⟨true, .overwrite, .unwind⟩)
        ⟨⟨"file:///b.sol", "solidity", 1, bytes "FIXME"⟩⟩).m_vfs.find "file:///b.sol" = some doc ∧
      (onDidOpen (exampleServer ⟨true, .overwrite, .unwind⟩)
        ⟨⟨"file:///b.sol", "solidity", 1, bytes "FIXME"⟩⟩).sent =
        (exampleServer ⟨true, .overwrite, .unwind⟩).sent ++
          [Outgoing.notify ⟨"file:///b.sol", diagnostics⟩] ∧
      validateInto doc [] = [⟨"file:///b.sol", diagnostics⟩] ∧
      ((∀ i, (doc.str.drop i).take 5 ≠ bytes "FIXME") → diagnostics = [])) ∧
    (∃ doc diagnostics,
      (onDidChange (exampleServer ⟨true, .overwrite, .unwind⟩) ⟨⟨"file:///a.sol", some 6⟩,
        [.ranged ⟨⟨0, 1⟩, ⟨0, 2⟩⟩ (bytes "é"), .full (bytes "no marker")]⟩).raised = none ∧
      (onDidChange (exampleServer ⟨true, .overwrite, .unwind⟩) ⟨⟨"file:///a.sol", some 6⟩,
        [.ranged ⟨⟨0, 1⟩, ⟨0, 2⟩⟩ (bytes "é"), .full (bytes "no marker")]⟩).server.m_vfs.find
          "file:///a.sol" = some doc ∧
      (onDidChange (exampleServer ⟨true, .overwrite, .unwind⟩) ⟨⟨"file:///a.sol", some 6⟩,
        [.ranged ⟨⟨0, 1⟩, ⟨0, 2⟩⟩ (bytes "é"), .full (bytes "no marker")]⟩).server.sent =
        (exampleServer ⟨true, .overwrite, .unwind⟩).sent ++
          [Outgoing.notify ⟨"file:///a.sol", diagnostics⟩] ∧
      validateInto doc [] = [⟨"file:///a.sol", diagnostics⟩] ∧
      ((∀ i, (doc.str.drop i).take 5 ≠ bytes "FIXME") → diagnostics = [])) :=
  have h := open_and_change_publish_once (exampleServer ⟨true, .overwrite, .unwind⟩)
    ⟨⟨"file:///b.sol", "solidity", 1, bytes "FIXME"⟩⟩
    ⟨⟨"file:///a.sol", some 6⟩,
      [.ranged ⟨⟨0, 1⟩, ⟨0, 2⟩⟩ (bytes "é"), .full (bytes "no marker")]⟩
    exampleFile
  ⟨by decide, by decide, h.1, h.2 (by decide) (by decide)⟩

/-! ## C3: Ranged batches against the reference splice -/

/-- C3: for an open document with text `t0` and a DidChange batch of ranged changes,
each valid for the text produced by the changes before it, the text of the document
after the handler is the left fold of the reference direct splice over `t0` in the
order of the batch. -/
theorem ranged_batch_matches_reference (s : LanguageServer) (uri : String)
    (version : Option Int) (file : File) (edits : List (Range × Text))
    (hfind : s.m_vfs.find uri = some file)
    (hvalid : batchApplies file.str
      (edits.map fun e => TextDocumentContentChangeEvent.ranged e.1 e.2) = true) :
    ∃ doc,
      (onDidChange s ⟨⟨uri, version⟩,
        edits.map fun e => TextDocumentContentChangeEvent.ranged e.1 e.2⟩).server.m_vfs.find uri
          = some doc ∧
      doc.str = edits.foldl (fun t e => referenceSplice t e.1 e.2) file.str := by
  obtain ⟨doc, hdoc, _, h2, _⟩ := onDidChange_of_applies s
    ⟨⟨uri, version⟩, edits.map fun e => TextDocumentContentChangeEvent.ranged e.1 e.2⟩
    file hfind hvalid
  refine ⟨doc, h2, ?_⟩
  rw [hdoc]
  simp only [File.str, List.foldl_map]
  rfl

theorem ranged_batch_matches_reference_witness :
    (exampleServer ⟨false, .reject, .dropped⟩).m_vfs.find "file:///a.sol" = some exampleFile ∧
    batchApplies exampleFile.str
      ([(⟨⟨0, 0⟩, ⟨0, 0⟩⟩, bytes "é\n"), (⟨⟨1, 0⟩, ⟨1, 1⟩⟩, bytes "xy")].map
        fun e => TextDocumentContentChangeEvent.ranged e.1 e.2) = true ∧
    Range.offsets exampleFile.str ⟨⟨1, 0⟩, ⟨1, 1⟩⟩ = none ∧
    [(⟨⟨0, 0⟩, ⟨0, 0⟩⟩, bytes "é\n"), ((⟨⟨1, 0⟩, ⟨1, 1⟩⟩ : Range), bytes "xy")].foldl
      (fun t e => referenceSplice t e.1 e.2) exampleFile.str = bytes "é\nxybc" ∧
    ∃ doc,
      (onDidChange (exampleServer ⟨false, .reject, .dropped⟩) ⟨⟨"file:///a.sol", none⟩,
        [(⟨⟨0, 0⟩, ⟨0, 0⟩⟩, bytes "é\n"), (⟨⟨1, 0⟩, ⟨1, 1⟩⟩, bytes "xy")].map
          fun e => TextDocumentContentChangeEvent.ranged e.1 e.2⟩).server.m_vfs.find
            "file:///a.sol" = some doc ∧
      doc.str = [(⟨⟨0, 0⟩, ⟨0, 0⟩⟩, bytes "é\n"), ((⟨⟨1, 0⟩, ⟨1, 1⟩⟩ : Range), bytes "xy")].foldl
        (fun t e => referenceSplice t e.1 e.2) exampleFile.str :=
  ⟨by decide, by decide, by decide, by decide,
    ranged_batch_matches_reference (exampleServer ⟨false, .reject, .dropped⟩) "file:///a.sol"
      none exampleFile [(⟨⟨0, 0⟩, ⟨0, 0⟩⟩, bytes "é\n"), (⟨⟨1, 0⟩, ⟨1, 1⟩⟩, bytes "xy")]
      (by decide) (by decide)⟩

/-! ## C4: Full replacements -/

/-- C4: for an open document and a DidChange batch of two full replacements `a` then
`b`, the text after the handler is `b`; for any non-empty batch of full replacements
it is the text of the last one, whatever the text was before. -/
theorem full_batch_last_wins (s : LanguageServer) (uri : String) (version : Option Int)
    (file : File) (hfind : s.m_vfs.find uri = some file) :
    (∀ a b : Text, ∃ doc,
      (onDidChange s ⟨⟨uri, version⟩, [.full a, .full b]⟩).server.m_vfs.find uri = some doc ∧
      doc.str = b) ∧
    (∀ (texts : List Text) (hne : texts ≠ []), ∃ doc,
      (onDidChange s ⟨⟨uri, version⟩,
        texts.map TextDocumentContentChangeEvent.full⟩).server.m_vfs.find uri = some doc ∧
      doc.str = texts.getLast hne) := by
  have hall : ∀ (l : List Text) (t : Text),
      batchApplies t (l.map TextDocumentContentChangeEvent.full) = true := by
    intro l
    induction l with
    | nil => intro t; rfl
    | cons x xs ih => intro t; simp [batchApplies, changeApplies, referenceChange, ih]
  have hfold : ∀ (l : List Text) (hl : l ≠ []) (t : Text),
      (l.map TextDocumentContentChangeEvent.full).foldl referenceChange t = l.getLast hl := by
    intro l
    induction l with
    | nil => intro hl; exact absurd rfl hl
    | cons x xs ih =>
      intro hl t
      cases xs with
      | nil => rfl
      | cons y ys =>
        rw [List.getLast_cons (by simp)]
        rw [← ih (by simp) x]
        rfl
  constructor
  · intro a b
    obtain ⟨doc, hdoc, _, h2, _⟩ := onDidChange_of_applies s
      ⟨⟨uri, version⟩, [.full a, .full b]⟩ file hfind (hall [a, b] _)
    exact ⟨doc, h2, by rw [hdoc]; rfl⟩
  · intro texts hne
    obtain ⟨doc, hdoc, _, h2, _⟩ := onDidChange_of_applies s
      ⟨⟨uri, version⟩, texts.map TextDocumentContentChangeEvent.full⟩ file hfind (hall texts _)
    refine ⟨doc, h2, ?_⟩
    rw [hdoc]
    exact hfold texts hne _

theorem full_batch_last_wins_witness :
    (exampleServer ⟨false, .overwrite, .unwind⟩).m_vfs.find "file:///a.sol" = some exampleFile ∧
    (∃ doc,
      (onDidChange (exampleServer ⟨false, .overwrite, .unwind⟩) ⟨⟨"file:///a.sol", some 6⟩,
        [.full (bytes "first"), .full (bytes "second")]⟩).server.m_vfs.find "file:///a.sol"
          = some doc ∧
      doc.str = bytes "second") ∧
    (∃ doc,
      (onDidChange (exampleServer ⟨false, .overwrite, .unwind⟩) ⟨⟨"file:///a.sol", some 6⟩,
        [bytes "one", bytes "two", bytes "three"].map
          TextDocumentContentChangeEvent.full⟩).server.m_vfs.find "file:///a.sol" = some doc ∧
      doc.str = bytes "three") :=
  have h := full_batch_last_wins (exampleServer ⟨false, .overwrite, .unwind⟩) "file:///a.sol"
    (some 6) exampleFile (by decide)
  ⟨by decide, h.1 (bytes "first") (bytes "second"),
    h.2 [bytes "one", bytes "two", bytes "three"] (by decide)⟩

/-! ## C5: Versions are not compared -/

/-- C5, as stated, fails: the document is tracked at version 5 with text "abc"; a
DidChange carrying version 3 and one full replacement is applied, and leaves version 3
and the new text. -/
theorem stale_version_counterexample :
    (exampleServer ⟨false, .overwrite, .unwind⟩).m_vfs.find "file:///a.sol" =
      some ⟨"file:///a.sol", "solidity", 5, ⟨bytes "abc"⟩⟩ ∧
    (3 : Int) ≤ 5 ∧
    (onDidChange (exampleServer ⟨false, .overwrite, .unwind⟩)
      ⟨⟨"file:///a.sol", some 3⟩, [.full (bytes "xyz")]⟩).server.m_vfs.find "file:///a.sol" =
      some ⟨"file:///a.sol", "solidity", 3, ⟨bytes "xyz"⟩⟩ ∧
    bytes "xyz" ≠ bytes "abc" ∧ (3 : Int) ≠ 5 := by
  decide

/-- C5, amended: a DidChange for an open document that carries a version `v` is not
rejected, whatever `v` is compared with the tracked version: after the handler the
document has version `v`, and when the changes all apply its text is the reference fold
of the changes over the previous text and one notification for it is sent. -/
theorem change_sets_version_unchecked (s : LanguageServer)
    (didChange : DidChangeTextDocumentParams) (file : File) (v : Int)
    (hfind : s.m_vfs.find didChange.textDocument.uri = some file)
    (hversion : didChange.textDocument.version = some v) :
    (∃ doc, (onDidChange s didChange).server.m_vfs.find didChange.textDocument.uri = some doc ∧
      doc.version = v) ∧
    (batchApplies file.str didChange.contentChanges = true →
      ∃ doc diagnostics,
        (onDidChange s didChange).server.m_vfs.find didChange.textDocument.uri = some doc ∧
        doc.version = v ∧
        doc.str = didChange.contentChanges.foldl referenceChange file.str ∧
        (onDidChange s didChange).server.sent =
          s.sent ++ [Outgoing.notify ⟨didChange.textDocument.uri, diagnostics⟩]) := by
  constructor
  · obtain ⟨h1, _, _⟩ := onDidChange_general s didChange file hfind
    exact ⟨_, h1, by simp [hversion]⟩
  · intro happly
    obtain ⟨doc, hdoc, _, h2, h3⟩ := onDidChange_of_applies s didChange file hfind happly
    refine ⟨doc, _, h2, ?_, ?_, h3⟩
    · rw [hdoc]; simp [hversion]
    · rw [hdoc]; rfl

theorem change_sets_version_unchecked_witness :
    (exampleServer ⟨false, .reject, .dropped⟩).m_vfs.find "file:///a.sol" = some exampleFile ∧
    (some (5 : Int)) = some 5 ∧
    (∃ doc, (onDidChange (exampleServer ⟨false, .reject, .dropped⟩)
        ⟨⟨"file:///a.sol", some 5⟩, [.ranged ⟨⟨0, 3⟩, ⟨0, 3⟩⟩ (bytes "d")]⟩).server.m_vfs.find
          "file:///a.sol" = some doc ∧
      doc.version = 5) ∧
    (batchApplies exampleFile.str [.ranged ⟨⟨0, 3⟩, ⟨0, 3⟩⟩ (bytes "d")] = true →
      ∃ doc diagnostics,
        (onDidChange (exampleServer ⟨false, .reject, .dropped⟩)
          ⟨⟨"file:///a.sol", some 5⟩, [.ranged ⟨⟨0, 3⟩, ⟨0, 3⟩⟩ (bytes "d")]⟩).server.m_vfs.find
            "file:///a.sol" = some doc ∧
        doc.version = 5 ∧
        doc.str = [TextDocumentContentChangeEvent.ranged ⟨⟨0, 3⟩, ⟨0, 3⟩⟩ (bytes "d")].foldl
          referenceChange exampleFile.str ∧
        (onDidChange (exampleServer ⟨false, .reject, .dropped⟩)
          ⟨⟨"file:///a.sol", some 5⟩, [.ranged ⟨⟨0, 3⟩, ⟨0, 3⟩⟩ (bytes "d")]⟩).server.sent =
          (exampleServer ⟨false, .reject, .dropped⟩).sent ++
            [Outgoing.notify ⟨"file:///a.sol", diagnostics⟩]) :=
  ⟨by decide, rfl,
    change_sets_version_unchecked (exampleServer ⟨false, .reject, .dropped⟩)
      ⟨⟨"file:///a.sol", some 5⟩, [.ranged ⟨⟨0, 3⟩, ⟨0, 3⟩⟩ (bytes "d")]⟩ exampleFile 5
      (by decide) rfl⟩

/-! ## C6: Closing a document -/

/-- C6, as stated, fails: after a document is opened and then closed, `find` still
returns it, and a later DidChange for its uri changes its text and version and
publishes diagnostics. -/
theorem closed_document_counterexample :
    (onDidClose (exampleServer ⟨false, .overwrite, .unwind⟩)
      ⟨⟨"file:///a.sol"⟩⟩).m_vfs.find "file:///a.sol" =
      some ⟨"file:///a.sol", "solidity", 5, ⟨bytes "abc"⟩⟩ ∧
    (onDidChange (onDidClose (exampleServer ⟨false, .overwrite, .unwind⟩) ⟨⟨"file:///a.sol"⟩⟩)
      ⟨⟨"file:///a.sol", some 6⟩, [.full (bytes "FIXME")]⟩).server.m_vfs.find "file:///a.sol" =
      some ⟨"file:///a.sol", "solidity", 6, ⟨bytes "FIXME"⟩⟩ ∧
    (onDidChange (onDidClose (exampleServer ⟨false, .overwrite, .unwind⟩) ⟨⟨"file:///a.sol"⟩⟩)
      ⟨⟨"file:///a.sol", some 6⟩, [.full (bytes "FIXME")]⟩).server.sent =
      (onDidClose (exampleServer ⟨false, .overwrite, .unwind⟩) ⟨⟨"file:///a.sol"⟩⟩).sent ++
        [Outgoing.notify ⟨"file:///a.sol",
          [⟨⟨⟨0, 0⟩, ⟨0, 5⟩⟩, .Error, "Hello, FIXME should be fixed.", "solc"⟩]⟩] := by
  decide

/-- C6, amended: the DidClose handler only logs. It leaves the store and what was sent
as they are, so `find` returns for every uri what it returned before; in particular a
document that was opened and then closed is still found. A later DidChange has the
same effect on the store, sends the same notifications and fails or not exactly as if
the DidClose had not been handled. -/
theorem close_only_logs (s : LanguageServer) (didOpen : DidOpenTextDocumentParams)
    (didClose : DidCloseTextDocumentParams) (didChange : DidChangeTextDocumentParams)
    (uri : String) :
    (onDidClose s didClose).m_vfs.find uri = s.m_vfs.find uri ∧
    (onDidClose s didClose).sent = s.sent ∧
    (onDidClose s didClose).log = s.log ++ [LogEntry.didClose didClose.textDocument.uri] ∧
    (∃ doc, (onDidClose (onDidOpen s didOpen) ⟨⟨didOpen.textDocument.uri⟩⟩).m_vfs.find
      didOpen.textDocument.uri = some doc) ∧
    (onDidChange (onDidClose s didClose) didChange).server.m_vfs =
      (onDidChange s didChange).server.m_vfs ∧
    (onDidChange (onDidClose s didClose) didChange).server.sent =
      (onDidChange s didChange).server.sent ∧
    (onDidChange (onDidClose s didClose) didChange).raised = (onDidChange s didChange).raised := by
  refine ⟨rfl, rfl, rfl, ?_, ?_⟩
  · obtain ⟨doc, h1, _⟩ := onDidOpen_eq s didOpen
    exact ⟨doc, h1⟩
  · exact onDidChange_log_irrelevant s _ didChange

/-! ## C7: Changes of unknown documents -/

/-- C7: a DidChange for a uri that the store does not hold leaves the store as it is
(no document is created, none is changed), sends nothing to the client, and only
logs an error. -/
theorem change_of_unknown_uri_ignored (s : LanguageServer)
    (didChange : DidChangeTextDocumentParams)
    (hfind : s.m_vfs.find didChange.textDocument.uri = none) :
    (onDidChange s didChange).server.m_vfs = s.m_vfs ∧
    (onDidChange s didChange).server.sent = s.sent ∧
    (onDidChange s didChange).server.log =
      s.log ++ [LogEntry.fileNotOpened didChange.textDocument.uri] ∧
    (LogEntry.fileNotOpened didChange.textDocument.uri).level = LogLevel.error ∧
    (onDidChange s didChange).raised = none := by
  refine ⟨?_, ?_, ?_, rfl, ?_⟩ <;> simp only [onDidChange, hfind, logLine]

theorem change_of_unknown_uri_ignored_witness :
    (exampleServer ⟨true, .overwrite, .unwind⟩).m_vfs.find "file:///b.sol" = none ∧
    (onDidChange (exampleServer ⟨true, .overwrite, .unwind⟩)
      ⟨⟨"file:///b.sol", some 1⟩, [.full (bytes "FIXME")]⟩).server.m_vfs =
        ⟨[exampleFile]⟩ ∧
    (onDidChange (exampleServer ⟨true, .overwrite, .unwind⟩)
      ⟨⟨"file:///b.sol", some 1⟩, [.full (bytes "FIXME")]⟩).server.sent =
        [Outgoing.notify ⟨"file:///a.sol", []⟩] :=
  have h := change_of_unknown_uri_ignored (exampleServer ⟨true, .overwrite, .unwind⟩)
    ⟨⟨"file:///b.sol", some 1⟩, [.full (bytes "FIXME")]⟩ (by decide)
  ⟨by decide, h.1, h.2.1⟩

/-! ## C8: Batches with a failing change -/

/-- C8, as stated, fails: the document is at version 5 with text "abc"; in a batch with
version 6 the first ranged change applies and the second has a range beyond the text
(`modify` fails with OutOfRangeEdit). The version of the batch and the text of the
first change stay in the document, whether the failure unwinds the handler or is
dropped. -/
theorem failed_batch_counterexample :
    (exampleServer ⟨false, .overwrite, .unwind⟩).m_vfs.find "file:///a.sol" =
      some ⟨"file:///a.sol", "solidity", 5, ⟨bytes "abc"⟩⟩ ∧
    File.modify ⟨"file:///a.sol", "solidity", 6, ⟨bytes "Xbc"⟩⟩ ⟨⟨0, 0⟩, ⟨0, 99⟩⟩ (bytes "q") =
      .error VfsError.outOfRangeEdit ∧
    (onDidChange (exampleServer ⟨false, .overwrite, .unwind⟩)
      ⟨⟨"file:///a.sol", some 6⟩,
        [.ranged ⟨⟨0, 0⟩, ⟨0, 1⟩⟩ (bytes "X"),
          .ranged ⟨⟨0, 0⟩, ⟨0, 99⟩⟩ (bytes "q")]⟩).server.m_vfs.find
          "file:///a.sol" = some ⟨"file:///a.sol", "solidity", 6, ⟨bytes "Xbc"⟩⟩ ∧
    (onDidChange (exampleServer ⟨false, .overwrite, .dropped⟩)
      ⟨⟨"file:///a.sol", some 6⟩,
        [.ranged ⟨⟨0, 0⟩, ⟨0, 1⟩⟩ (bytes "X"),
          .ranged ⟨⟨0, 0⟩, ⟨0, 99⟩⟩ (bytes "q")]⟩).server.m_vfs.find
          "file:///a.sol" = some ⟨"file:///a.sol", "solidity", 6, ⟨bytes "Xbc"⟩⟩ ∧
    bytes "Xbc" ≠ bytes "abc" ∧ (6 : Int) ≠ 5 :=
  ⟨by decide, rfl, by decide, by decide, by decide, by decide⟩

/-- C8, amended: in a DidChange batch for an open document in which some change does not
apply, the failing `modify` leaves the text as it found it, but nothing is undone:
the batch splits at its first failing change, and after the handler the document has
the version of the batch (when it carries one) and the text that the changes before
the failing one produced; when the failure is dropped rather than unwinding the
handler, the later changes are applied on top, failing ones skipped, and the
notification is sent. -/
theorem failed_batch_not_undone (s : LanguageServer)
    (didChange : DidChangeTextDocumentParams) (file : File)
    (hfind : s.m_vfs.find didChange.textDocument.uri = some file)
    (hfail : batchApplies file.str didChange.contentChanges = false) :
    ∃ before c after doc,
      didChange.contentChanges = before ++ c :: after ∧
      batchApplies file.str before = true ∧
      changeApplies (before.foldl referenceChange file.str) c = false ∧
      (onDidChange s didChange).server.m_vfs.find didChange.textDocument.uri = some doc ∧
      doc.version = didChange.textDocument.version.getD file.version ∧
      (s.env.onModifyFailure = FailureMode.unwind →
        doc.str = before.foldl referenceChange file.str ∧
        (onDidChange s didChange).raised ≠ none ∧
        (onDidChange s didChange).server.sent = s.sent) ∧
      (s.env.onModifyFailure = FailureMode.dropped →
        doc.str = (before ++ after).foldl referenceChange file.str ∧
        (onDidChange s didChange).raised = none ∧
        ∃ diagnostics, (onDidChange s didChange).server.sent =
          s.sent ++ [Outgoing.notify ⟨didChange.textDocument.uri, diagnostics⟩]) := by
  obtain ⟨before, c, after, hsplit, hbefore, hc⟩ := batchApplies_false_split _ _ hfail
  obtain ⟨h1, h2, h3⟩ := onDidChange_general s didChange file hfind
  refine ⟨before, c, after, _, hsplit, hbefore, hc, h1, rfl, ?_, ?_⟩
  · intro hmode
    obtain ⟨e, he⟩ := applyContentChanges_unwind s.env file before after c hmode hbefore hc
    rw [hsplit] at h2 h3 ⊢
    rw [he] at h2 h3 ⊢
    refine ⟨rfl, ?_, ?_⟩
    · rw [h2]; simp
    · rw [h3]; simp
  · intro hmode
    have he := applyContentChanges_dropped s.env file didChange.contentChanges hmode
    rw [he] at h2 h3 ⊢
    refine ⟨?_, h2, _, h3⟩
    rw [hsplit]
    exact foldl_referenceChange_skip _ _ _ _ hc

theorem failed_batch_not_undone_witness :
    (exampleServer ⟨false, .overwrite, .dropped⟩).m_vfs.find "file:///a.sol" = some exampleFile ∧
    batchApplies exampleFile.str
      [.ranged ⟨⟨0, 0⟩, ⟨0, 1⟩⟩ (bytes "FIXME"), .ranged ⟨⟨1, 0⟩, ⟨1, 0⟩⟩ (bytes "q"),
        .ranged ⟨⟨0, 5⟩, ⟨0, 7⟩⟩ []] = false ∧
    (onDidChange (exampleServer ⟨false, .overwrite, .dropped⟩) ⟨⟨"file:///a.sol", some 6⟩,
      [.ranged ⟨⟨0, 0⟩, ⟨0, 1⟩⟩ (bytes "FIXME"), .ranged ⟨⟨1, 0⟩, ⟨1, 0⟩⟩ (bytes "q"),
        .ranged ⟨⟨0, 5⟩, ⟨0, 7⟩⟩ []]⟩).server.m_vfs.find "file:///a.sol" =
      some ⟨"file:///a.sol", "solidity", 6, ⟨bytes "FIXME"⟩⟩ ∧
    ∃ before c after doc,
      [TextDocumentContentChangeEvent.ranged ⟨⟨0, 0⟩, ⟨0, 1⟩⟩ (bytes "FIXME"),
        .ranged ⟨⟨1, 0⟩, ⟨1, 0⟩⟩ (bytes "q"), .ranged ⟨⟨0, 5⟩, ⟨0, 7⟩⟩ []] =
          before ++ c :: after ∧
      (onDidChange (exampleServer ⟨false, .overwrite, .dropped⟩) ⟨⟨"file:///a.sol", some 6⟩,
        [.ranged ⟨⟨0, 0⟩, ⟨0, 1⟩⟩ (bytes "FIXME"), .ranged ⟨⟨1, 0⟩, ⟨1, 0⟩⟩ (bytes "q"),
          .ranged ⟨⟨0, 5⟩, ⟨0, 7⟩⟩ []]⟩).server.m_vfs.find "file:///a.sol" = some doc ∧
      doc.version = 6 :=
  have h := failed_batch_not_undone (exampleServer ⟨false, .overwrite, .dropped⟩)
    ⟨⟨"file:///a.sol", some 6⟩,
      [.ranged ⟨⟨0, 0⟩, ⟨0, 1⟩⟩ (bytes "FIXME"), .ranged ⟨⟨1, 0⟩, ⟨1, 0⟩⟩ (bytes "q"),
        .ranged ⟨⟨0, 5⟩, ⟨0, 7⟩⟩ []]⟩ exampleFile (by decide) (by decide)
  ⟨by decide, by decide, by decide,
    h.elim fun before h => h.elim fun c h => h.elim fun after h => h.elim fun doc h =>
      ⟨before, c, after, doc, h.1, h.2.2.2.1, h.2.2.2.2.1⟩⟩

/-! ## C9: Published ranges lie within the text -/

/-- C9: every diagnostic that `validate` produces for a text lies within the text:
its start is not after its end, both are on the same line, that line exists and is
at least as long (in UTF-16 units) as the end column, and `offsetOf` succeeds on both
endpoints: on the start it gives back the offset of the occurrence of "FIXME", on the
end an offset of the text behind that occurrence. -/
theorem validate_ranges_within_text (file : File) (params : PublishDiagnosticsParams)
    (d : Diagnostic) (hp : params ∈ validateInto file []) (hd : d ∈ params.diagnostics) :
    Position.le d.range.start d.range.end ∧
    d.range.end.line = d.range.start.line ∧
    d.range.end.column = d.range.start.column + 5 ∧
    (∃ len, lineLength file.str d.range.start.line = some len ∧ d.range.end.column ≤ len) ∧
    (∃ o e, offsetOf file.str d.range.start = some o ∧
      offsetOf file.str d.range.end = some e ∧
      (file.str.drop o).take 5 = bytes "FIXME" ∧ o + 5 ≤ e ∧ e ≤ file.str.length) := by
  rw [validateInto_eq] at hp
  simp only [List.nil_append, List.mem_singleton] at hp
  subst hp
  simp only [List.mem_map] at hd
  obtain ⟨o, ho, rfl⟩ := hd
  have hocc := (mem_occurrences_fixme _ _).1 ho
  have hocc2 : occursAt file.str fixme o = true := by simpa [occursAt, fixme] using hocc
  have hb := occursAt_fixme_bound _ _ hocc2
  have hend := positionOf_after_fixme file.str o hocc
  have hdrop : file.str.drop o = fixme ++ file.str.drop (o + 5) := by
    conv_lhs => rw [← List.take_append_drop 5 (file.str.drop o), hocc]
    simp [List.drop_drop, Nat.add_comm]
  refine ⟨Or.inr ⟨rfl, by simp [fixmeDiagnostic]⟩, rfl, rfl, ?_, ?_⟩
  · refine ⟨_, positionOf_lineLength file.str o, ?_⟩
    rw [hdrop, lines_head_fixme]
    simp only [fixmeDiagnostic, File.str]
    omega
  · have hstart := offsetOf_positionOf file.str o (by omega) (isBoundary_of_fixme _ _ hocc)
    obtain ⟨e, he1, he2, he3⟩ := offsetOf_positionOf_ge file.str (o + 5) hb
    have hrange : (fixmeDiagnostic file o).range.end = positionOf file.str (o + 5) := by
      rw [hend]; rfl
    refine ⟨o, e, hstart, ?_, hocc, he2, he3⟩
    rw [hrange]
    exact he1

theorem validate_ranges_within_text_witness :
    (⟨"file:///a.sol", [⟨⟨⟨1, 3⟩, ⟨1, 8⟩⟩, .Error, "Hello, FIXME should be fixed.", "solc"⟩]⟩ :
        PublishDiagnosticsParams) ∈
      validateInto ⟨"file:///a.sol", "solidity", 1, ⟨bytes "a\né😀FIXME b"⟩⟩ [] ∧
    (⟨⟨⟨1, 3⟩, ⟨1, 8⟩⟩, .Error, "Hello, FIXME should be fixed.", "solc"⟩ : Diagnostic) ∈
      [⟨⟨⟨1, 3⟩, ⟨1, 8⟩⟩, .Error, "Hello, FIXME should be fixed.", "solc"⟩] ∧
    Position.le ⟨1, 3⟩ ⟨1, 8⟩ ∧
    (8 : Nat) = 3 + 5 ∧
    (∃ len, lineLength (bytes "a\né😀FIXME b") 1 = some len ∧ 8 ≤ len) ∧
    (∃ o e, offsetOf (bytes "a\né😀FIXME b") ⟨1, 3⟩ = some o ∧
      offsetOf (bytes "a\né😀FIXME b") ⟨1, 8⟩ = some e ∧
      ((bytes "a\né😀FIXME b").drop o).take 5 = bytes "FIXME" ∧ o + 5 ≤ e ∧
      e ≤ (bytes "a\né😀FIXME b").length) :=
  have h := validate_ranges_within_text
    ⟨"file:///a.sol", "solidity", 1, ⟨bytes "a\né😀FIXME b"⟩⟩
    ⟨"file:///a.sol", [⟨⟨⟨1, 3⟩, ⟨1, 8⟩⟩, .Error, "Hello, FIXME should be fixed.", "solc"⟩]⟩
    ⟨⟨⟨1, 3⟩, ⟨1, 8⟩⟩, .Error, "Hello, FIXME should be fixed.", "solc"⟩
    (by decide) (by decide)
  ⟨by decide, by decide, h.1, h.2.2.1, h.2.2.2.1, h.2.2.2.2⟩

/-! ## C10: The answer to the initialisation request -/

/-- C10: the handler of an InitializeRequest hands exactly one message to the client,
a reply to the id of the request, whose result carries that id and advertises
`textDocumentSync.openClose = true` and `textDocumentSync.change = Incremental`; the
document store is untouched. The visitor of the DidChange handler matches the
advertised kind: it takes a ranged change (to `File::modify`) as well as a full one (to
`File::replace`). -/
theorem initialize_replies_once (s : LanguageServer) (args : InitializeRequest) :
    (∃ result : InitializeResult,
      (onInitializeRequest s args).sent = s.sent ++ [Outgoing.reply args.requestId result] ∧
      result.requestId = args.requestId ∧
      result.capabilities.textDocumentSync.openClose = true ∧
      result.capabilities.textDocumentSync.change = TextDocumentSyncKind.Incremental) ∧
    (onInitializeRequest s args).m_vfs = s.m_vfs ∧
    (∀ (debug : Bool) (file : File) (range : Range) (text : Text),
      (applyContentChange debug file (.ranged range text)).2 = file.modify range text ∧
      (applyContentChange debug file (.full text)).2 = .ok (file.replace text)) := by
  refine ⟨⟨⟨args.requestId, ⟨true, ⟨true, TextDocumentSyncKind.Incremental⟩⟩⟩,
    ?_, rfl, rfl, rfl⟩, ?_, fun _ _ _ _ => ⟨rfl, rfl⟩⟩
  · simp only [onInitializeRequest, reply]
    split <;> rfl
  · simp only [onInitializeRequest, reply]
    split <;> rfl

end solidity
